import Mathlib

/-!
Verification of the Fourier contour drawer core
(`src/fourier.py`, `src/animator.py`) against its specification.

The embedding works in exact real / complex arithmetic: `np.fft.fft` is
modelled by the defining DFT sum, `np.abs` / `np.angle` by `Complex.abs` /
`Complex.arg`, and Python's stable `list.sort(key=amp, reverse=True)` by a
stable descending insertion sort (any stable sort has the same output).
-/

/-- A Fourier coefficient record as built by `compute_dft` in
`src/fourier.py`: fields `freq` (the index `k` from `enumerate`),
`amp` (`np.abs(val) / n`) and `phase` (`np.angle(val)`). -/
structure Coefficient where
  freq : ℕ
  amp : ℝ
  phase : ℝ

instance : Inhabited Coefficient := ⟨⟨0, 0, 0⟩⟩

/-- The unit exponential `e^{2 π i q}` for a real argument `q`. -/
noncomputable def uexp (q : ℝ) : ℂ :=
  Complex.exp (2 * (Real.pi : ℂ) * Complex.I * q)

/-- Entry `k` of `np.fft.fft(signal)` for a real input of length `N`:
`X_k = Σ_{n=0}^{N-1} signal[n] · e^{-2πi k n / N}` (numpy's definition). -/
noncomputable def dftX (signal : List ℝ) (k : ℕ) : ℂ :=
  ∑ n ∈ Finset.range signal.length,
    (signal.getD n 0 : ℂ) * uexp (-((k : ℝ) * n / signal.length))

/-- The dictionary appended for index `k` in the loop of `compute_dft`:
`{freq: k, amp: np.abs(val)/n, phase: np.angle(val)}`. -/
noncomputable def mkCoefficient (signal : List ℝ) (k : ℕ) : Coefficient :=
  { freq := k
    amp := Complex.abs (dftX signal k) / signal.length
    phase := Complex.arg (dftX signal k) }

/-- Stable insertion into a list sorted by amplitude descending: the new
element `c` (which originates earlier in the input than every element of the
list) is placed before the first element whose amplitude is not larger. -/
noncomputable def insertCoeff (c : Coefficient) : List Coefficient → List Coefficient
  | [] => [c]
  | d :: ds => if c.amp < d.amp then d :: insertCoeff c ds else c :: d :: ds

/-- Stable sort by amplitude descending, modelling Python's stable
`coefficients.sort(key=lambda x: x['amp'], reverse=True)`. -/
noncomputable def sortCoeffs : List Coefficient → List Coefficient
  | [] => []
  | c :: cs => insertCoeff c (sortCoeffs cs)

/-- `compute_dft` from `src/fourier.py`: one coefficient per `k` of
`enumerate(np.fft.fft(signal))`, then the stable descending sort by `amp`. -/
noncomputable def compute_dft (signal : List ℝ) : List Coefficient :=
  sortCoeffs ((List.range signal.length).map (mkCoefficient signal))

/-- The loop variable `angle = c['phase'] + 2 * np.pi * c['freq'] * t` in
`_calculate_chain` (`src/animator.py`). -/
noncomputable def coeffAngle (c : Coefficient) (t : ℝ) : ℝ :=
  c.phase + 2 * Real.pi * c.freq * t

/-- `dx = c['amp'] * np.cos(angle)` in `_calculate_chain`. -/
noncomputable def coeffDX (c : Coefficient) (t : ℝ) : ℝ :=
  c.amp * Real.cos (coeffAngle c t)

/-- `dy = c['amp'] * np.sin(angle)` in `_calculate_chain`. -/
noncomputable def coeffDY (c : Coefficient) (t : ℝ) : ℝ :=
  c.amp * Real.sin (coeffAngle c t)

/-- The loop of `_calculate_chain`: `acc` is the running pair
`(curr_val_x, curr_val_y)` and each coefficient appends the point
`(center + updated accumulator)`; returns `points[1:]`. -/
noncomputable def chainFrom (center : ℝ × ℝ) (acc : ℝ × ℝ) (t : ℝ) :
    List Coefficient → List (ℝ × ℝ)
  | [] => []
  | c :: cs =>
      (center.1 + (acc.1 + coeffDX c t), center.2 + (acc.2 + coeffDY c t)) ::
        chainFrom center (acc.1 + coeffDX c t, acc.2 + coeffDY c t) t cs

/-- The full points array of `_calculate_chain` before the optional swap:
`points[0] = center`, then the accumulated loop points. -/
noncomputable def calcChainPrimary (coeffs : List Coefficient) (t : ℝ)
    (center : ℝ × ℝ) : List (ℝ × ℝ) :=
  center :: chainFrom center (0, 0) t coeffs

/-- The per-point swap applied when `is_y_component` is set:
`swapped_x = center_x + (y - center_y)`, `swapped_y = center_y + (x - center_x)`. -/
noncomputable def swapPoint (center p : ℝ × ℝ) : ℝ × ℝ :=
  (center.1 + (p.2 - center.2), center.2 + (p.1 - center.1))

/-- `_calculate_chain` from `src/animator.py`: the points array together with
the tip `points[-1]`; in `is_y_component` mode every point is swapped about
the center before the tip is taken. -/
noncomputable def calcChain (coeffs : List Coefficient) (t : ℝ)
    (center : ℝ × ℝ) (is_y_component : Bool) : List (ℝ × ℝ) × (ℝ × ℝ) :=
  let points := calcChainPrimary coeffs t center
  if is_y_component then
    let swapped := points.map (swapPoint center)
    (swapped, swapped.getLastD (0, 0))
  else
    (points, points.getLastD (0, 0))

/-- The scale computed in `FourierDrawerAnimator.__init__`:
`S = max(np.max(np.abs(pts[:,0])), np.max(np.abs(pts[:,1]))) * 1.5`
(the fold with neutral element `0` agrees with `np.max` on the
nonempty lists of absolute values that occur). -/
noncomputable def scaleS (original_points : List (ℝ × ℝ)) : ℝ :=
  max ((original_points.map (fun p => |p.1|)).foldr max 0)
      ((original_points.map (fun p => |p.2|)).foldr max 0) * 1.5

/-- `self.center_tr = (self.S, self.S)`. -/
noncomputable def center_tr (original_points : List (ℝ × ℝ)) : ℝ × ℝ :=
  (scaleS original_points, scaleS original_points)

/-- `self.center_bl = (-self.S, -self.S)`. -/
noncomputable def center_bl (original_points : List (ℝ × ℝ)) : ℝ × ℝ :=
  (-scaleS original_points, -scaleS original_points)

/-- The state of a `FourierDrawerAnimator` relevant to the geometry: the two
truncated coefficient lists, the original contour points, and the growing
trace (`trace_x` and `trace_y` zipped into one list of 2D points). -/
structure AnimatorState where
  x_coeffs : List Coefficient
  y_coeffs : List Coefficient
  original_points : List (ℝ × ℝ)
  trace : List (ℝ × ℝ)

/-- `FourierDrawerAnimator.update`: with `t = frame / total_frames`, compute
the X chain at `center_tr` in primary mode and the Y chain at `center_bl` in
secondary mode, and append `(x_tip[0], y_tip[1])` to the trace. -/
noncomputable def update (st : AnimatorState) (frame total_frames : ℕ) : AnimatorState :=
  let t : ℝ := (frame : ℝ) / (total_frames : ℝ)
  let x_res := calcChain st.x_coeffs t (center_tr st.original_points) false
  let y_res := calcChain st.y_coeffs t (center_bl st.original_points) true
  { st with trace := st.trace ++ [(x_res.2.1, y_res.2.2)] }

/-- Driving the first `k` frames of a `total_frames`-frame animation, as
`save_animation` does through `FuncAnimation(frames=total_frames)`: `update`
is called once per frame index in increasing order. -/
noncomputable def runFrames (st : AnimatorState) (total_frames k : ℕ) : AnimatorState :=
  (List.range k).foldl (fun s f => update s f total_frames) st

/-- The running real-part sum of an epicycle chain: the sum of
`amp * cos(phase + 2π · freq · t)` over a coefficient list, i.e. the final
value of `curr_val_x` in `_calculate_chain`. -/
noncomputable def realPartSum (coeffs : List Coefficient) (t : ℝ) : ℝ :=
  (coeffs.map (fun c => coeffDX c t)).sum

/-- The reconstruction of sample `n` from the first `M` amplitude-sorted
coefficients, evaluated at the sample time `t = n / N`. -/
noncomputable def reconSample (signal : List ℝ) (M n : ℕ) : ℝ :=
  realPartSum ((compute_dft signal).take M) ((n : ℝ) / signal.length)

/-- Mean-squared reconstruction error over one full period (the `N` sample
times `t = n / N`) when only the first `M` sorted coefficients are used. -/
noncomputable def mseVal (signal : List ℝ) (M : ℕ) : ℝ :=
  (∑ n ∈ Finset.range signal.length,
    (signal.getD n 0 - reconSample signal M n) ^ 2) / signal.length

/-- The real sequence contributed by frequency `k` at sample `n`:
`Re(X_k · e^{2πi k n / N}) / N`. -/
noncomputable def vTerm (signal : List ℝ) (k n : ℕ) : ℝ :=
  (dftX signal k * uexp ((k : ℝ) * n / signal.length)).re / signal.length

/-- Prefix sums of the real (x) contributions of the first `m` coefficients. -/
noncomputable def prefDX (coeffs : List Coefficient) (t : ℝ) (m : ℕ) : ℝ :=
  ∑ j ∈ Finset.range m, coeffDX (coeffs.getD j default) t

/-- Prefix sums of the imaginary (y) contributions of the first `m` coefficients. -/
noncomputable def prefDY (coeffs : List Coefficient) (t : ℝ) (m : ℕ) : ℝ :=
  ∑ j ∈ Finset.range m, coeffDY (coeffs.getD j default) t

lemma prefDX_zero (coeffs : List Coefficient) (t : ℝ) : prefDX coeffs t 0 = 0 := by
  simp [prefDX]

lemma prefDY_zero (coeffs : List Coefficient) (t : ℝ) : prefDY coeffs t 0 = 0 := by
  simp [prefDY]

lemma prefDX_cons (c : Coefficient) (cs : List Coefficient) (t : ℝ) (m : ℕ) :
    prefDX (c :: cs) t (m + 1) = coeffDX c t + prefDX cs t m := by
  rw [prefDX, Finset.sum_range_succ']
  simp [prefDX, add_comm]

lemma prefDY_cons (c : Coefficient) (cs : List Coefficient) (t : ℝ) (m : ℕ) :
    prefDY (c :: cs) t (m + 1) = coeffDY c t + prefDY cs t m := by
  rw [prefDY, Finset.sum_range_succ']
  simp [prefDY, add_comm]

lemma prefDX_succ (coeffs : List Coefficient) (t : ℝ) (m : ℕ) :
    prefDX coeffs t (m + 1) = prefDX coeffs t m + coeffDX (coeffs.getD m default) t := by
  rw [prefDX, Finset.sum_range_succ]; rfl

lemma prefDY_succ (coeffs : List Coefficient) (t : ℝ) (m : ℕ) :
    prefDY coeffs t (m + 1) = prefDY coeffs t m + coeffDY (coeffs.getD m default) t := by
  rw [prefDY, Finset.sum_range_succ]; rfl

lemma chainFrom_length (center : ℝ × ℝ) (t : ℝ) :
    ∀ (cs : List Coefficient) (acc : ℝ × ℝ), (chainFrom center acc t cs).length = cs.length := by
  intro cs
  induction cs with
  | nil => intro acc; rfl
  | cons c cs ih => intro acc; simp [chainFrom, ih]

lemma calcChainPrimary_length (coeffs : List Coefficient) (t : ℝ) (center : ℝ × ℝ) :
    (calcChainPrimary coeffs t center).length = coeffs.length + 1 := by
  simp [calcChainPrimary, chainFrom_length]

lemma chainFrom_getD (center : ℝ × ℝ) (t : ℝ) :
    ∀ (cs : List Coefficient) (acc : ℝ × ℝ) (i : ℕ), i < cs.length →
      (chainFrom center acc t cs).getD i (0, 0)
        = (center.1 + (acc.1 + prefDX cs t (i + 1)),
           center.2 + (acc.2 + prefDY cs t (i + 1))) := by
  intro cs
  induction cs with
  | nil => intro acc i hi; exact absurd hi (by simp)
  | cons c cs ih =>
      intro acc i hi
      cases i with
      | zero =>
          simp [chainFrom, prefDX_cons, prefDY_cons, prefDX_zero, prefDY_zero]
      | succ i =>
          have hi' : i < cs.length := by simpa using hi
          have := ih (acc.1 + coeffDX c t, acc.2 + coeffDY c t) i hi'
          simp only [chainFrom, List.getD_cons_succ, this, prefDX_cons, prefDY_cons]
          simp only [Prod.mk.injEq]; constructor <;> ring

lemma calcChainPrimary_getD (coeffs : List Coefficient) (t : ℝ) (center : ℝ × ℝ)
    (i : ℕ) (hi : i ≤ coeffs.length) :
    (calcChainPrimary coeffs t center).getD i (0, 0)
      = (center.1 + prefDX coeffs t i, center.2 + prefDY coeffs t i) := by
  cases i with
  | zero => simp [calcChainPrimary, prefDX_zero, prefDY_zero]
  | succ i =>
      have hi' : i < coeffs.length := by omega
      have := chainFrom_getD center t coeffs (0, 0) i hi'
      simp only [calcChainPrimary, List.getD_cons_succ, this]
      simp only [Prod.mk.injEq]; constructor <;> ring

lemma chainFrom_getLastD (center : ℝ × ℝ) (t : ℝ) :
    ∀ (cs : List Coefficient), cs ≠ [] → ∀ (acc : ℝ × ℝ) (p : ℝ × ℝ),
      (chainFrom center acc t cs).getLastD p
        = (center.1 + (acc.1 + prefDX cs t cs.length),
           center.2 + (acc.2 + prefDY cs t cs.length)) := by
  intro cs
  induction cs with
  | nil => intro h; exact absurd rfl h
  | cons c cs ih =>
      intro _ acc p
      rw [chainFrom, List.getLastD_cons]
      cases cs with
      | nil =>
          simp [chainFrom, prefDX_cons, prefDY_cons, prefDX_zero, prefDY_zero]
      | cons d ds =>
          rw [ih (by simp) (acc.1 + coeffDX c t, acc.2 + coeffDY c t)]
          simp only [List.length_cons, prefDX_cons, prefDY_cons]
          simp only [Prod.mk.injEq]; constructor <;> ring

lemma calcChainPrimary_getLastD (coeffs : List Coefficient) (t : ℝ) (center : ℝ × ℝ)
    (d : ℝ × ℝ) :
    (calcChainPrimary coeffs t center).getLastD d
      = (center.1 + prefDX coeffs t coeffs.length,
         center.2 + prefDY coeffs t coeffs.length) := by
  rw [calcChainPrimary, List.getLastD_cons]
  cases coeffs with
  | nil => simp [chainFrom, prefDX_zero, prefDY_zero]
  | cons c cs =>
      rw [chainFrom_getLastD center t (c :: cs) (by simp) (0, 0) center]
      simp only [Prod.mk.injEq]; constructor <;> ring

lemma getLastD_map {α β : Type} (f : α → β) :
    ∀ (l : List α), l ≠ [] → ∀ (d : α) (e : β),
      (l.map f).getLastD e = f (l.getLastD d) := by
  intro l
  induction l with
  | nil => intro h; exact absurd rfl h
  | cons a l ih =>
      intro _ d e
      cases l with
      | nil => rfl
      | cons b l =>
          rw [List.map_cons, List.getLastD_cons, List.getLastD_cons,
            ih (by simp) b (f a)]
          obtain ⟨x, hx⟩ := Option.isSome_iff_exists.mp
            (List.getLast?_isSome.mpr (by simp : (b :: l) ≠ []))
          simp [List.getLastD, hx]

lemma calcChain_false (coeffs : List Coefficient) (t : ℝ) (center : ℝ × ℝ) :
    calcChain coeffs t center false
      = (calcChainPrimary coeffs t center,
         (center.1 + prefDX coeffs t coeffs.length,
          center.2 + prefDY coeffs t coeffs.length)) := by
  rw [calcChain]
  simp only [Bool.false_eq_true, if_false, calcChainPrimary_getLastD]

lemma calcChain_true (coeffs : List Coefficient) (t : ℝ) (center : ℝ × ℝ) :
    calcChain coeffs t center true
      = ((calcChainPrimary coeffs t center).map (swapPoint center),
         swapPoint center
           (center.1 + prefDX coeffs t coeffs.length,
            center.2 + prefDY coeffs t coeffs.length)) := by
  rw [calcChain]
  simp only [if_true]
  rw [getLastD_map (swapPoint center) (calcChainPrimary coeffs t center)
      (by simp [calcChainPrimary]) (0, 0), calcChainPrimary_getLastD]

lemma insertCoeff_perm (c : Coefficient) :
    ∀ (ds : List Coefficient), (insertCoeff c ds).Perm (c :: ds) := by
  intro ds
  induction ds with
  | nil => exact List.Perm.refl _
  | cons d ds ih =>
      rw [insertCoeff]
      by_cases h : c.amp < d.amp
      · rw [if_pos h]
        exact (ih.cons d).trans (List.Perm.swap c d ds)
      · rw [if_neg h]

lemma sortCoeffs_perm : ∀ (l : List Coefficient), (sortCoeffs l).Perm l := by
  intro l
  induction l with
  | nil => exact List.Perm.refl _
  | cons c cs ih =>
      exact (insertCoeff_perm c (sortCoeffs cs)).trans (ih.cons c)

lemma compute_dft_perm (signal : List ℝ) :
    (compute_dft signal).Perm
      ((List.range signal.length).map (mkCoefficient signal)) :=
  sortCoeffs_perm _

lemma compute_dft_length (signal : List ℝ) :
    (compute_dft signal).length = signal.length := by
  rw [(compute_dft_perm signal).length_eq]
  simp

lemma compute_dft_mem (signal : List ℝ) {c : Coefficient}
    (hc : c ∈ compute_dft signal) :
    c.freq < signal.length ∧ c = mkCoefficient signal c.freq := by
  have hc' := (compute_dft_perm signal).mem_iff.mp hc
  obtain ⟨k, hk, hck⟩ := List.mem_map.mp hc'
  have hk' : k < signal.length := List.mem_range.mp hk
  have hfreq : c.freq = k := by rw [← hck]; rfl
  constructor
  · rw [hfreq]; exact hk'
  · rw [hfreq, hck]

lemma compute_dft_countP (signal : List ℝ) (k : ℕ) (hk : k < signal.length) :
    (compute_dft signal).countP (fun c => c.freq == k) = 1 := by
  rw [List.Perm.countP_eq _ (compute_dft_perm signal), List.countP_map]
  have : ((fun c : Coefficient => c.freq == k) ∘ mkCoefficient signal)
      = fun j : ℕ => j == k := by
    funext j; simp [mkCoefficient]
  rw [this]
  have hnd := List.nodup_range signal.length
  have hmem : k ∈ List.range signal.length := List.mem_range.mpr hk
  rw [show (fun j : ℕ => j == k) = (· == k) from rfl, ← List.count]
  exact List.count_eq_one_of_mem hnd hmem

/-- The strict order satisfied by consecutive elements of the sorted
coefficient list: amplitude strictly descending, with amplitude ties resolved
by strictly ascending original frequency. -/
def coeffLT (a b : Coefficient) : Prop :=
  b.amp < a.amp ∨ (a.amp = b.amp ∧ a.freq < b.freq)

lemma insertCoeff_pairwise (c : Coefficient) :
    ∀ (ds : List Coefficient), ds.Pairwise coeffLT →
      (∀ d ∈ ds, c.freq < d.freq) → (insertCoeff c ds).Pairwise coeffLT := by
  intro ds
  induction ds with
  | nil => intro _ _; simp [insertCoeff]
  | cons d ds ih =>
      intro hp hf
      rw [List.pairwise_cons] at hp
      obtain ⟨hd, hds⟩ := hp
      rw [insertCoeff]
      by_cases h : c.amp < d.amp
      · rw [if_pos h, List.pairwise_cons]
        constructor
        · intro e he
          rcases List.mem_cons.mp ((insertCoeff_perm c ds).mem_iff.mp he) with
            rfl | hmem
          · exact Or.inl h
          · exact hd e hmem
        · exact ih hds (fun e he => hf e (List.mem_cons_of_mem d he))
      · rw [if_neg h, List.pairwise_cons]
        constructor
        · intro e he
          rcases List.mem_cons.mp he with rfl | hmem
          · rcases lt_or_eq_of_le (not_lt.mp h) with hlt | heq
            · exact Or.inl hlt
            · exact Or.inr ⟨heq.symm, hf e (List.mem_cons_self e ds)⟩
          · rcases hd e hmem with hlt | heq
            · exact Or.inl (lt_of_lt_of_le hlt (not_lt.mp h))
            · rcases lt_or_eq_of_le (not_lt.mp h) with hlt2 | heq2
              · exact Or.inl (by rw [← heq.1]; exact hlt2)
              · exact Or.inr ⟨by rw [← heq2, heq.1],
                  hf e (List.mem_cons_of_mem d hmem)⟩
        · exact List.pairwise_cons.mpr ⟨hd, hds⟩

lemma sortCoeffs_pairwise :
    ∀ (l : List Coefficient), l.Pairwise (fun a b => a.freq < b.freq) →
      (sortCoeffs l).Pairwise coeffLT := by
  intro l
  induction l with
  | nil => intro _; simp [sortCoeffs]
  | cons c cs ih =>
      intro hp
      rw [List.pairwise_cons] at hp
      exact insertCoeff_pairwise c (sortCoeffs cs) (ih hp.2)
        (fun d hd => hp.1 d ((sortCoeffs_perm cs).mem_iff.mp hd))

lemma compute_dft_pairwise (signal : List ℝ) :
    (compute_dft signal).Pairwise coeffLT := by
  apply sortCoeffs_pairwise
  exact List.Pairwise.map _ (fun {a b} hab => hab) (List.pairwise_lt_range _)

lemma uexp_add (a b : ℝ) : uexp (a + b) = uexp a * uexp b := by
  rw [uexp, uexp, uexp, ← Complex.exp_add]
  congr 1
  push_cast
  ring

lemma uexp_nat_mul (q : ℝ) (n : ℕ) : uexp (n * q) = uexp q ^ n := by
  rw [uexp, uexp, ← Complex.exp_nat_mul]
  congr 1
  push_cast
  ring

lemma uexp_intCast (m : ℤ) : uexp (m : ℝ) = 1 := by
  rw [uexp, show 2 * (Real.pi : ℂ) * Complex.I * ((m : ℝ) : ℂ)
      = (m : ℂ) * (2 * (Real.pi : ℂ) * Complex.I) by push_cast; ring]
  exact Complex.exp_int_mul_two_pi_mul_I m

lemma uexp_eq (q : ℝ) : uexp q = Complex.exp (((2 * Real.pi * q : ℝ) : ℂ) * Complex.I) := by
  rw [uexp]
  congr 1
  push_cast
  ring

lemma uexp_re (q : ℝ) : (uexp q).re = Real.cos (2 * Real.pi * q) := by
  rw [uexp_eq, Complex.exp_ofReal_mul_I_re]

lemma uexp_im (q : ℝ) : (uexp q).im = Real.sin (2 * Real.pi * q) := by
  rw [uexp_eq, Complex.exp_ofReal_mul_I_im]

lemma uexp_conj (q : ℝ) : (starRingEnd ℂ) (uexp q) = uexp (-q) := by
  rw [uexp, uexp, ← Complex.exp_conj]
  congr 1
  simp only [map_mul, Complex.conj_I, Complex.conj_ofReal, map_ofNat]
  push_cast
  ring

lemma sum_uexp_eq (N : ℕ) (hN : 0 < N) (d : ℤ) :
    ∑ n ∈ Finset.range N, uexp ((d : ℝ) * n / N)
      = if (N : ℤ) ∣ d then (N : ℂ) else 0 := by
  have hNR : (N : ℝ) ≠ 0 := Nat.cast_ne_zero.mpr hN.ne'
  have hterm : ∀ n : ℕ, uexp ((d : ℝ) * n / N) = uexp ((d : ℝ) / N) ^ n := by
    intro n
    rw [← uexp_nat_mul]
    congr 1
    ring
  by_cases hdvd : (N : ℤ) ∣ d
  · obtain ⟨e, he⟩ := hdvd
    have harg : ((d : ℝ)) / (N : ℝ) = ((e : ℤ) : ℝ) := by
      rw [he]
      push_cast
      field_simp
    have hz : uexp ((d : ℝ) / N) = 1 := by rw [harg, uexp_intCast]
    simp only [hterm, hz, one_pow, Finset.sum_const, Finset.card_range,
      nsmul_eq_mul, mul_one]
    rw [if_pos ⟨e, he⟩]
  · have h2ne : (2 * (Real.pi : ℂ) * Complex.I) ≠ 0 := by
      simp [Real.pi_ne_zero, Complex.I_ne_zero]
    have hz : uexp ((d : ℝ) / N) ≠ 1 := by
      intro hz1
      rw [uexp] at hz1
      obtain ⟨m, hm⟩ := Complex.exp_eq_one_iff.mp hz1
      have h2 : (((d : ℝ) / (N : ℝ) : ℝ) : ℂ) = (m : ℂ) :=
        mul_left_cancel₀ h2ne (by rw [hm]; ring)
      have h2' : (d : ℝ) / (N : ℝ) = (m : ℝ) := by exact_mod_cast h2
      have h3 : (d : ℝ) = (m : ℝ) * N := by
        field_simp at h2'
        linarith
      have h4 : d = m * N := by exact_mod_cast h3
      exact hdvd ⟨m, by linarith⟩
    rw [if_neg hdvd]
    simp only [hterm]
    rw [geom_sum_eq hz]
    have hzN : uexp ((d : ℝ) / N) ^ N = 1 := by
      rw [← uexp_nat_mul]
      have harg : (N : ℝ) * ((d : ℝ) / N) = ((d : ℤ) : ℝ) := by
        field_simp
      rw [harg, uexp_intCast]
    rw [hzN]
    simp

lemma dft_inversion (signal : List ℝ) (n : ℕ) (hn : n < signal.length) :
    ∑ k ∈ Finset.range signal.length,
        dftX signal k * uexp ((k : ℝ) * n / signal.length)
      = (signal.length : ℂ) * (signal.getD n 0 : ℂ) := by
  have hN : 0 < signal.length := by omega
  calc
    ∑ k ∈ Finset.range signal.length,
        dftX signal k * uexp ((k : ℝ) * n / signal.length)
      = ∑ k ∈ Finset.range signal.length, ∑ m ∈ Finset.range signal.length,
          (signal.getD m 0 : ℂ) *
            uexp ((((n : ℤ) - (m : ℤ) : ℤ) : ℝ) * k / signal.length) := by
        refine Finset.sum_congr rfl (fun k _ => ?_)
        rw [dftX, Finset.sum_mul]
        refine Finset.sum_congr rfl (fun m _ => ?_)
        rw [mul_assoc, ← uexp_add]
        congr 2
        push_cast
        ring
    _ = ∑ m ∈ Finset.range signal.length, (signal.getD m 0 : ℂ) *
          ∑ k ∈ Finset.range signal.length,
            uexp ((((n : ℤ) - (m : ℤ) : ℤ) : ℝ) * k / signal.length) := by
        rw [Finset.sum_comm]
        exact Finset.sum_congr rfl (fun m _ => by rw [Finset.mul_sum])
    _ = ∑ m ∈ Finset.range signal.length, (signal.getD m 0 : ℂ) *
          (if (signal.length : ℤ) ∣ ((n : ℤ) - (m : ℤ)) then (signal.length : ℂ) else 0) := by
        exact Finset.sum_congr rfl (fun m _ => by rw [sum_uexp_eq _ hN])
    _ = (signal.getD n 0 : ℂ) *
          (if (signal.length : ℤ) ∣ ((n : ℤ) - (n : ℤ)) then (signal.length : ℂ) else 0) := by
        refine Finset.sum_eq_single n (fun m hm hmn => ?_) (fun h => absurd (Finset.mem_range.mpr hn) h)
        have hmN : m < signal.length := Finset.mem_range.mp hm
        have hndvd : ¬ (signal.length : ℤ) ∣ ((n : ℤ) - (m : ℤ)) := by
          intro hdvd
          have h0 : (n : ℤ) - (m : ℤ) = 0 :=
            Int.eq_zero_of_dvd_of_natAbs_lt_natAbs hdvd (by omega)
          exact hmn (by omega)
        rw [if_neg hndvd, mul_zero]
    _ = (signal.length : ℂ) * (signal.getD n 0 : ℂ) := by
        rw [if_pos (by simp), mul_comm]

lemma re_mul_cos_arg (z : ℂ) (θ : ℝ) :
    Complex.abs z * Real.cos (Complex.arg z + θ)
      = (z * Complex.exp ((θ : ℂ) * Complex.I)).re := by
  have h := Complex.abs_mul_cos_add_sin_mul_I z
  have hre : (Complex.abs z : ℝ) * Real.cos (Complex.arg z) = z.re := by
    have := congrArg Complex.re h
    simpa using this
  have him : (Complex.abs z : ℝ) * Real.sin (Complex.arg z) = z.im := by
    have := congrArg Complex.im h
    simpa using this
  have hEre : (Complex.exp ((θ : ℂ) * Complex.I)).re = Real.cos θ :=
    Complex.exp_ofReal_mul_I_re θ
  have hEim : (Complex.exp ((θ : ℂ) * Complex.I)).im = Real.sin θ :=
    Complex.exp_ofReal_mul_I_im θ
  rw [Complex.mul_re, hEre, hEim, Real.cos_add, ← hre, ← him]
  ring

lemma coeffDX_mk (signal : List ℝ) (k : ℕ) (t : ℝ) :
    coeffDX (mkCoefficient signal k) t
      = (dftX signal k * uexp ((k : ℝ) * t)).re / signal.length := by
  have hangle : coeffAngle (mkCoefficient signal k) t
      = Complex.arg (dftX signal k) + 2 * Real.pi * ((k : ℝ) * t) := by
    rw [coeffAngle, mkCoefficient]
    ring
  rw [coeffDX, hangle, mkCoefficient]
  rw [div_mul_eq_mul_div]
  congr 1
  rw [re_mul_cos_arg (dftX signal k) (2 * Real.pi * ((k : ℝ) * t)), uexp_eq]

lemma coeffDX_mk_sample (signal : List ℝ) (k n : ℕ) :
    coeffDX (mkCoefficient signal k) ((n : ℝ) / signal.length)
      = vTerm signal k n := by
  rw [coeffDX_mk, vTerm]
  congr 3
  ring

lemma list_sum_map_getD (f : Coefficient → ℝ) :
    ∀ (l : List Coefficient),
      (l.map f).sum = ∑ j ∈ Finset.range l.length, f (l.getD j default) := by
  intro l
  induction l with
  | nil => simp
  | cons c cs ih =>
      rw [List.map_cons, List.sum_cons, ih, List.length_cons,
        Finset.sum_range_succ']
      simp [add_comm]

lemma realPartSum_eq_pref (coeffs : List Coefficient) (t : ℝ) :
    realPartSum coeffs t = prefDX coeffs t coeffs.length := by
  rw [realPartSum, prefDX, list_sum_map_getD]

lemma list_range_map_sum (g : ℕ → ℝ) :
    ∀ (n : ℕ), ((List.range n).map g).sum = ∑ k ∈ Finset.range n, g k := by
  intro n
  induction n with
  | zero => simp
  | succ n ih =>
      rw [List.range_succ, List.map_append, List.sum_append,
        Finset.sum_range_succ, ih]
      simp

lemma realPartSum_perm (signal : List ℝ) (t : ℝ) :
    realPartSum (compute_dft signal) t
      = ∑ k ∈ Finset.range signal.length, coeffDX (mkCoefficient signal k) t := by
  rw [realPartSum,
    ((compute_dft_perm signal).map (fun c => coeffDX c t)).sum_eq,
    List.map_map, list_range_map_sum]
  simp [Function.comp]

lemma roundtrip_core (signal : List ℝ) (n : ℕ) (hs : signal ≠ [])
    (hn : n < signal.length) :
    realPartSum (compute_dft signal) ((n : ℝ) / signal.length)
      = signal.getD n 0 := by
  have hN : 0 < signal.length := List.length_pos.mpr hs
  have hNR : (signal.length : ℝ) ≠ 0 := Nat.cast_ne_zero.mpr hN.ne'
  rw [realPartSum_perm]
  calc
    ∑ k ∈ Finset.range signal.length,
        coeffDX (mkCoefficient signal k) ((n : ℝ) / signal.length)
      = ∑ k ∈ Finset.range signal.length, vTerm signal k n :=
        Finset.sum_congr rfl (fun k _ => coeffDX_mk_sample signal k n)
    _ = (∑ k ∈ Finset.range signal.length,
          dftX signal k * uexp ((k : ℝ) * n / signal.length)).re / signal.length := by
        simp only [vTerm]
        rw [Complex.re_sum, Finset.sum_div]
    _ = signal.getD n 0 := by
        rw [dft_inversion signal n hn]
        simp [Complex.mul_re, hNR]

/-- C1: Round-trip DFT invertibility: for every non-empty real signal of
length `N`, summing `amp · cos(phase + 2π · freq · t)` over all `N`
coefficients of `compute_dft` (the running real part of `_calculate_chain`)
at the sample time `t = n / N` reproduces the signal value at index `n`;
equivalently, the primary-mode chain tip's x offset from any anchor is the
signal value. Exact, in real arithmetic. -/
theorem C1_dft_roundtrip (signal : List ℝ) (n : ℕ) (hs : signal ≠ [])
    (hn : n < signal.length) :
    realPartSum (compute_dft signal) ((n : ℝ) / signal.length) = signal.getD n 0 ∧
    ∀ center : ℝ × ℝ,
      (calcChain (compute_dft signal) ((n : ℝ) / signal.length) center false).2.1
        = center.1 + signal.getD n 0 := by
  have h := roundtrip_core signal n hs hn
  refine ⟨h, fun center => ?_⟩
  have htip : (calcChain (compute_dft signal) ((n : ℝ) / signal.length) center false).2.1
      = center.1 + prefDX (compute_dft signal) ((n : ℝ) / signal.length)
          (compute_dft signal).length := by
    rw [calcChain_false]
  rw [htip, ← realPartSum_eq_pref, h]

/-- Witness for C1 at the concrete signal `[1]` and sample index `0`. -/
theorem C1_dft_roundtrip_witness :
    realPartSum (compute_dft [(1 : ℝ)]) (((0 : ℕ) : ℝ) / (([(1 : ℝ)]).length : ℝ))
      = ([(1 : ℝ)]).getD 0 0 ∧
    ∀ center : ℝ × ℝ,
      (calcChain (compute_dft [(1 : ℝ)]) (((0 : ℕ) : ℝ) / (([(1 : ℝ)]).length : ℝ))
          center false).2.1
        = center.1 + ([(1 : ℝ)]).getD 0 0 :=
  C1_dft_roundtrip [(1 : ℝ)] 0 (by simp) (by simp)

/-- C2: `compute_dft` returns exactly `N` coefficients; every returned
coefficient with frequency `k` has `amp = |X_k| / N` and `phase = arg X_k`
for `X_k = Σ signal[n]·e^{-2πi k n / N}`, and every `k < N` occurs as the
frequency of exactly one returned coefficient. -/
theorem C2_dft_contract (signal : List ℝ) (hs : signal ≠ []) :
    (compute_dft signal).length = signal.length ∧
    (∀ c ∈ compute_dft signal,
      c.freq < signal.length ∧
      c.amp = Complex.abs (dftX signal c.freq) / signal.length ∧
      c.phase = Complex.arg (dftX signal c.freq)) ∧
    (∀ k, k < signal.length →
      (compute_dft signal).countP (fun c => c.freq == k) = 1) := by
  refine ⟨compute_dft_length signal, fun c hc => ?_,
    fun k hk => compute_dft_countP signal k hk⟩
  obtain ⟨h1, h2⟩ := compute_dft_mem signal hc
  refine ⟨h1, ?_, ?_⟩
  · rw [h2]; simp [mkCoefficient]
  · rw [h2]; simp [mkCoefficient]

/-- Witness for C2 at the concrete signal `[1]`. -/
theorem C2_dft_contract_witness :
    (compute_dft [(1 : ℝ)]).length = ([(1 : ℝ)]).length :=
  (C2_dft_contract [(1 : ℝ)] (by simp)).1

/-- C3: for a non-empty signal and `0 < M ≤ N`, the primary-mode chain on the
first `M` sorted coefficients has `M+1` points, starts at the anchor, obeys
the recurrence `point[i+1] = point[i] + amp·(cos angle, sin angle)` with
`angle = phase + 2π·freq·t`, and the returned tip is `point[M]`. -/
theorem C3_chain_structure (signal : List ℝ) (M : ℕ) (anchor : ℝ × ℝ) (t : ℝ)
    (hs : signal ≠ []) (hM : 0 < M) (hMN : M ≤ signal.length) :
    (calcChain ((compute_dft signal).take M) t anchor false).1.length = M + 1 ∧
    (calcChain ((compute_dft signal).take M) t anchor false).1.getD 0 (0, 0) = anchor ∧
    (∀ i, i < M →
      (calcChain ((compute_dft signal).take M) t anchor false).1.getD (i + 1) (0, 0)
        = (((calcChain ((compute_dft signal).take M) t anchor false).1.getD i (0, 0)).1
             + (((compute_dft signal).take M).getD i default).amp
               * Real.cos ((((compute_dft signal).take M).getD i default).phase
                   + 2 * Real.pi * (((compute_dft signal).take M).getD i default).freq * t),
           ((calcChain ((compute_dft signal).take M) t anchor false).1.getD i (0, 0)).2
             + (((compute_dft signal).take M).getD i default).amp
               * Real.sin ((((compute_dft signal).take M).getD i default).phase
                   + 2 * Real.pi * (((compute_dft signal).take M).getD i default).freq * t))) ∧
    (calcChain ((compute_dft signal).take M) t anchor false).2
      = (calcChain ((compute_dft signal).take M) t anchor false).1.getD M (0, 0) := by
  have hlen : ((compute_dft signal).take M).length = M := by
    rw [List.length_take, compute_dft_length]
    exact min_eq_left hMN
  rw [calcChain_false]
  refine ⟨?_, ?_, ?_, ?_⟩
  · rw [calcChainPrimary_length, hlen]
  · rw [calcChainPrimary_getD _ _ _ 0 (by omega)]
    simp [prefDX_zero, prefDY_zero]
  · intro i hi
    rw [calcChainPrimary_getD _ _ _ (i + 1) (by omega),
      calcChainPrimary_getD _ _ _ i (by omega), prefDX_succ, prefDY_succ]
    simp only [coeffDX, coeffDY, coeffAngle, Prod.mk.injEq]
    constructor <;> ring
  · rw [hlen, calcChainPrimary_getD _ _ _ M (by omega)]

/-- Witness for C3 at the concrete signal `[1]`, `M = 1`, anchor `(0,0)`,
time `t = 0`: the chain has exactly two points. -/
theorem C3_chain_structure_witness :
    (calcChain ((compute_dft [(1 : ℝ)]).take 1) 0 ((0 : ℝ), (0 : ℝ)) false).1.length
      = 1 + 1 :=
  (C3_chain_structure [(1 : ℝ)] 1 ((0 : ℝ), (0 : ℝ)) 0 (by simp) (by norm_num)
    (by simp)).1

/-- C4: the list returned by `compute_dft` is sorted by amplitude in
descending order, and two coefficients of equal amplitude appear in strictly
ascending order of their original frequency (stability of the sort), so
truncation to the first `M` entries is deterministic. -/
theorem C4_sorted_stable (signal : List ℝ) :
    List.Pairwise (fun a b => b.amp ≤ a.amp) (compute_dft signal) ∧
    ∀ i j, i < j → j < signal.length →
      ((compute_dft signal).getD i default).amp
          = ((compute_dft signal).getD j default).amp →
      ((compute_dft signal).getD i default).freq
          < ((compute_dft signal).getD j default).freq := by
  have hp := compute_dft_pairwise signal
  constructor
  · exact hp.imp (fun {a b} hab => hab.elim le_of_lt (fun h => le_of_eq h.1.symm))
  · intro i j hij hj hamp
    have hjlen : j < (compute_dft signal).length := by
      rw [compute_dft_length]; exact hj
    have hilen : i < (compute_dft signal).length := lt_trans hij hjlen
    have hR := List.pairwise_iff_getElem.mp hp i j hilen hjlen hij
    rw [List.getD_eq_getElem _ _ hilen, List.getD_eq_getElem _ _ hjlen] at hamp ⊢
    rcases hR with hlt | heq
    · exact absurd hamp (ne_of_gt hlt)
    · exact heq.2

/-- Witness for C4 at the concrete signal `[0, 1]` and positions `0 < 1`. -/
theorem C4_sorted_stable_witness :
    ((compute_dft [(0 : ℝ), 1]).getD 0 default).amp
        = ((compute_dft [(0 : ℝ), 1]).getD 1 default).amp →
    ((compute_dft [(0 : ℝ), 1]).getD 0 default).freq
        < ((compute_dft [(0 : ℝ), 1]).getD 1 default).freq :=
  (C4_sorted_stable [(0 : ℝ), 1]).2 0 1 (by norm_num) (by norm_num)

lemma foldr_max_pair :
    ∀ (l : List (ℝ × ℝ)) (a b : ℝ),
      max ((l.map (fun p => |p.1|)).foldr max a) ((l.map (fun p => |p.2|)).foldr max b)
        = (l.map (fun p => max |p.1| |p.2|)).foldr max (max a b) := by
  intro l
  induction l with
  | nil => intro a b; rfl
  | cons p l ih =>
      intro a b
      simp only [List.map_cons, List.foldr_cons]
      rw [max_max_max_comm, ih]

/-- C5: every frame's drawn point takes its x coordinate from the tip of the
X chain anchored at `TR = (S, S)` in primary mode and its y coordinate from
the tip of the Y chain anchored at `BL = (-S, -S)` in secondary mode, where
`S` is 1.5 times the largest absolute coordinate of the original points. -/
theorem C5_drawn_point (st : AnimatorState) (frame total_frames : ℕ) :
    (update st frame total_frames).trace
      = st.trace ++
        [((calcChain st.x_coeffs ((frame : ℝ) / (total_frames : ℝ))
            (scaleS st.original_points, scaleS st.original_points) false).2.1,
          (calcChain st.y_coeffs ((frame : ℝ) / (total_frames : ℝ))
            (-scaleS st.original_points, -scaleS st.original_points) true).2.2)] ∧
    scaleS st.original_points
      = 1.5 * (st.original_points.map (fun p => max |p.1| |p.2|)).foldr max 0 := by
  constructor
  · rfl
  · rw [scaleS, foldr_max_pair, max_self]
    ring

/-- C6: the secondary-mode chain is the primary-mode chain with its offsets
from the anchor transposed pointwise; the recurrence underneath is the same
and only the final 2D embedding differs. -/
theorem C6_secondary_swap (coeffs : List Coefficient) (t : ℝ) (center : ℝ × ℝ)
    (j : ℕ) (hj : j < (calcChain coeffs t center false).1.length) :
    (calcChain coeffs t center true).1
      = (calcChain coeffs t center false).1.map (swapPoint center) ∧
    ((calcChain coeffs t center true).1.getD j (0, 0)).2 - center.2
      = ((calcChain coeffs t center false).1.getD j (0, 0)).1 - center.1 ∧
    ((calcChain coeffs t center true).1.getD j (0, 0)).1 - center.1
      = ((calcChain coeffs t center false).1.getD j (0, 0)).2 - center.2 := by
  have hfalse : (calcChain coeffs t center false).1 = calcChainPrimary coeffs t center := by
    rw [calcChain_false]
  have hmap : (calcChain coeffs t center true).1
      = (calcChain coeffs t center false).1.map (swapPoint center) := by
    rw [calcChain_true, hfalse]
  have hj' : j < (calcChainPrimary coeffs t center).length := by
    rw [hfalse] at hj
    exact hj
  have hjm : j < ((calcChainPrimary coeffs t center).map (swapPoint center)).length := by
    rw [List.length_map]
    exact hj'
  have hgd : ((calcChain coeffs t center true).1).getD j (0, 0)
      = swapPoint center ((calcChainPrimary coeffs t center).getD j (0, 0)) := by
    rw [hmap, hfalse, List.getD_eq_getElem _ _ hjm, List.getElem_map,
      List.getD_eq_getElem _ _ hj']
  refine ⟨hmap, ?_, ?_⟩
  · rw [hgd, hfalse]
    simp only [swapPoint]
    ring
  · rw [hgd, hfalse]
    simp only [swapPoint]
    ring

/-- Witness for C6 on the empty coefficient list at `t = 0`, anchor `(0,0)`,
index `j = 0`. -/
theorem C6_secondary_swap_witness :
    (calcChain ([] : List Coefficient) 0 ((0 : ℝ), (0 : ℝ)) true).1
      = (calcChain ([] : List Coefficient) 0 ((0 : ℝ), (0 : ℝ)) false).1.map
          (swapPoint ((0 : ℝ), (0 : ℝ))) :=
  (C6_secondary_swap [] 0 ((0 : ℝ), (0 : ℝ)) 0
    (by rw [calcChain_false, calcChainPrimary_length]; norm_num)).1

lemma runFrames_succ (st : AnimatorState) (F k : ℕ) :
    runFrames st F (k + 1) = update (runFrames st F k) k F := by
  rw [runFrames, runFrames, List.range_succ, List.foldl_append]
  rfl

lemma runFrames_fields (st : AnimatorState) (F : ℕ) :
    ∀ k, (runFrames st F k).x_coeffs = st.x_coeffs ∧
         (runFrames st F k).y_coeffs = st.y_coeffs ∧
         (runFrames st F k).original_points = st.original_points := by
  intro k
  induction k with
  | zero => exact ⟨rfl, rfl, rfl⟩
  | succ k ih =>
      rw [runFrames_succ]
      exact ⟨ih.1, ih.2.1, ih.2.2⟩

lemma update_trace (st : AnimatorState) (f F : ℕ) :
    (update st f F).trace
      = st.trace ++
        [((calcChain st.x_coeffs ((f : ℝ) / (F : ℝ))
            (center_tr st.original_points) false).2.1,
          (calcChain st.y_coeffs ((f : ℝ) / (F : ℝ))
            (center_bl st.original_points) true).2.2)] := rfl

lemma runFrames_trace (st : AnimatorState) (F : ℕ) (h0 : st.trace = []) :
    ∀ k, (runFrames st F k).trace
      = (List.range k).map (fun f : ℕ =>
          ((calcChain st.x_coeffs ((f : ℝ) / (F : ℝ))
              (center_tr st.original_points) false).2.1,
           (calcChain st.y_coeffs ((f : ℝ) / (F : ℝ))
              (center_bl st.original_points) true).2.2)) := by
  intro k
  induction k with
  | zero => simpa [runFrames] using h0
  | succ k ih =>
      have hf := runFrames_fields st F k
      rw [runFrames_succ, update_trace, ih, hf.1, hf.2.1, hf.2.2,
        List.range_succ, List.map_append]
      rfl

/-- C7: driving `F > 0` frames from an empty trace uses `t = f / F` on frame
`f`, appends exactly one drawn point per frame in increasing frame order, the
trace after all `F` frames has length `F`, and the final trace extends every
intermediate trace without modifying what was already appended. -/
theorem C7_frame_driving (st : AnimatorState) (F : ℕ) (hF : 0 < F)
    (h0 : st.trace = []) :
    (∀ k, k ≤ F → (runFrames st F k).trace
        = (List.range k).map (fun f : ℕ =>
            ((calcChain st.x_coeffs ((f : ℝ) / (F : ℝ))
                (center_tr st.original_points) false).2.1,
             (calcChain st.y_coeffs ((f : ℝ) / (F : ℝ))
                (center_bl st.original_points) true).2.2))) ∧
    (runFrames st F F).trace.length = F ∧
    (∀ k, k ≤ F → ∃ rest, (runFrames st F F).trace = (runFrames st F k).trace ++ rest) := by
  refine ⟨fun k _ => runFrames_trace st F h0 k, ?_, fun k hk => ?_⟩
  · rw [runFrames_trace st F h0 F, List.length_map, List.length_range]
  · refine ⟨((List.range (F - k)).map (fun x => k + x)).map (fun f : ℕ =>
      ((calcChain st.x_coeffs ((f : ℝ) / (F : ℝ))
          (center_tr st.original_points) false).2.1,
       (calcChain st.y_coeffs ((f : ℝ) / (F : ℝ))
          (center_bl st.original_points) true).2.2)), ?_⟩
    rw [runFrames_trace st F h0 F, runFrames_trace st F h0 k, ← List.map_append,
      ← List.range_add, Nat.add_sub_cancel' hk]

/-- Witness for C7 on the empty animator state with `F = 1`. -/
theorem C7_frame_driving_witness :
    (runFrames ⟨[], [], [], []⟩ 1 1).trace.length = 1 :=
  (C7_frame_driving ⟨[], [], [], []⟩ 1 (by norm_num) rfl).2.1

/-- C8 (amended): `_calculate_chain` performs no input validation: on an
empty coefficient list it returns the complete one-point chain `[anchor]`
with tip `anchor` in both modes, rather than raising any error. -/
theorem C8_no_validation_amended (t : ℝ) (center : ℝ × ℝ) (mode : Bool) :
    calcChain [] t center mode = ([center], center) := by
  cases mode
  · rw [calcChain_false]
    simp [calcChainPrimary, chainFrom, prefDX_zero, prefDY_zero]
  · rw [calcChain_true]
    simp [calcChainPrimary, chainFrom, prefDX_zero, prefDY_zero, swapPoint]

/-- C8 counterexample: at the concrete input of zero truncated coefficients,
`t = 0` and anchor `(0, 0)`, `_calculate_chain` returns a complete one-point
chain instead of raising `InvalidInputError` and producing no result. -/
theorem C8_no_validation_counterexample :
    calcChain [] 0 ((0 : ℝ), (0 : ℝ)) false
      = ([((0 : ℝ), (0 : ℝ))], ((0 : ℝ), (0 : ℝ))) := by
  rw [calcChain_false]
  simp [calcChainPrimary, chainFrom, prefDX_zero, prefDY_zero]

lemma coeffDX_add_one (c : Coefficient) (t : ℝ) : coeffDX c (t + 1) = coeffDX c t := by
  rw [coeffDX, coeffDX, coeffAngle, coeffAngle,
    show c.phase + 2 * Real.pi * c.freq * (t + 1)
      = (c.phase + 2 * Real.pi * c.freq * t) + c.freq * (2 * Real.pi) by ring,
    Real.cos_add_nat_mul_two_pi]

lemma coeffDY_add_one (c : Coefficient) (t : ℝ) : coeffDY c (t + 1) = coeffDY c t := by
  rw [coeffDY, coeffDY, coeffAngle, coeffAngle,
    show c.phase + 2 * Real.pi * c.freq * (t + 1)
      = (c.phase + 2 * Real.pi * c.freq * t) + c.freq * (2 * Real.pi) by ring,
    Real.sin_add_nat_mul_two_pi]

lemma chainFrom_add_one (center : ℝ × ℝ) (t : ℝ) :
    ∀ (cs : List Coefficient) (acc : ℝ × ℝ),
      chainFrom center acc (t + 1) cs = chainFrom center acc t cs := by
  intro cs
  induction cs with
  | nil => intro acc; rfl
  | cons c cs ih =>
      intro acc
      rw [chainFrom, chainFrom, coeffDX_add_one, coeffDY_add_one, ih]

/-- C10: every coefficient produced by `compute_dft` has a natural-number
frequency, so `_calculate_chain` is 1-periodic in `t`: at `t + 1` it returns
exactly the same chain and tip as at `t`, for every anchor and both modes. -/
theorem C10_time_periodicity (signal : List ℝ) (t : ℝ) (center : ℝ × ℝ)
    (mode : Bool) :
    calcChain (compute_dft signal) (t + 1) center mode
      = calcChain (compute_dft signal) t center mode := by
  have hchain : calcChainPrimary (compute_dft signal) (t + 1) center
      = calcChainPrimary (compute_dft signal) t center := by
    rw [calcChainPrimary, calcChainPrimary, chainFrom_add_one]
  simp only [calcChain, hchain]

/-- The frequency at position `j` of the amplitude-sorted coefficient list. -/
noncomputable def sortedFreq (signal : List ℝ) (j : ℕ) : ℕ :=
  ((compute_dft signal).getD j default).freq

lemma compute_dft_getD_mem (signal : List ℝ) (j : ℕ) (hj : j < signal.length) :
    (compute_dft signal).getD j default ∈ compute_dft signal := by
  have hjl : j < (compute_dft signal).length := by
    rw [compute_dft_length]
    exact hj
  rw [List.getD_eq_getElem _ _ hjl]
  exact List.getElem_mem hjl

lemma sortedFreq_lt (signal : List ℝ) (j : ℕ) (hj : j < signal.length) :
    sortedFreq signal j < signal.length :=
  (compute_dft_mem signal (compute_dft_getD_mem signal j hj)).1

lemma sortedFreq_mk (signal : List ℝ) (j : ℕ) (hj : j < signal.length) :
    (compute_dft signal).getD j default
      = mkCoefficient signal (sortedFreq signal j) :=
  (compute_dft_mem signal (compute_dft_getD_mem signal j hj)).2

lemma compute_dft_freq_nodup (signal : List ℝ) :
    ((compute_dft signal).map Coefficient.freq).Nodup := by
  have hperm := (compute_dft_perm signal).map Coefficient.freq
  rw [List.map_map] at hperm
  have hid : (List.range signal.length).map
      (Coefficient.freq ∘ mkCoefficient signal) = List.range signal.length := by
    rw [show Coefficient.freq ∘ mkCoefficient signal = id from rfl, List.map_id]
  rw [hid] at hperm
  exact hperm.nodup_iff.mpr (List.nodup_range _)

lemma sortedFreq_inj (signal : List ℝ) (i j : ℕ) (hi : i < signal.length)
    (hj : j < signal.length) (hij : sortedFreq signal i = sortedFreq signal j) :
    i = j := by
  have hil : i < (compute_dft signal).length := by
    rw [compute_dft_length]; exact hi
  have hjl : j < (compute_dft signal).length := by
    rw [compute_dft_length]; exact hj
  have hil' : i < ((compute_dft signal).map Coefficient.freq).length := by
    rw [List.length_map]; exact hil
  have hjl' : j < ((compute_dft signal).map Coefficient.freq).length := by
    rw [List.length_map]; exact hjl
  have hgd : ((compute_dft signal).map Coefficient.freq).get ⟨i, hil'⟩
      = ((compute_dft signal).map Coefficient.freq).get ⟨j, hjl'⟩ := by
    simp only [List.get_eq_getElem, List.getElem_map]
    rw [← List.getD_eq_getElem _ default hil, ← List.getD_eq_getElem _ default hjl]
    exact hij
  have hiff := @List.Nodup.getElem_inj_iff ℕ ((compute_dft signal).map Coefficient.freq)
    (compute_dft_freq_nodup signal) i hil' j hjl'
  simp only [List.get_eq_getElem] at hgd
  exact hiff.mp hgd

lemma sum_sortedFreq_bij (signal : List ℝ) (g : ℕ → ℝ) :
    ∑ j ∈ Finset.range signal.length, g (sortedFreq signal j)
      = ∑ k ∈ Finset.range signal.length, g k := by
  have hinj : ∀ i ∈ Finset.range signal.length, ∀ j ∈ Finset.range signal.length,
      sortedFreq signal i = sortedFreq signal j → i = j := by
    intro i hi j hj h
    exact sortedFreq_inj signal i j (Finset.mem_range.mp hi) (Finset.mem_range.mp hj) h
  have hsub : (Finset.range signal.length).image (sortedFreq signal)
      ⊆ Finset.range signal.length := by
    intro x hx
    obtain ⟨j, hj, rfl⟩ := Finset.mem_image.mp hx
    exact Finset.mem_range.mpr (sortedFreq_lt signal j (Finset.mem_range.mp hj))
  have himg : (Finset.range signal.length).image (sortedFreq signal)
      = Finset.range signal.length := by
    apply Finset.eq_of_subset_of_card_le hsub
    rw [Finset.card_image_of_injOn (fun i hi j hj h => hinj i hi j hj h)]
  calc
    ∑ j ∈ Finset.range signal.length, g (sortedFreq signal j)
      = ∑ k ∈ (Finset.range signal.length).image (sortedFreq signal), g k :=
        (Finset.sum_image hinj).symm
    _ = ∑ k ∈ Finset.range signal.length, g k := by rw [himg]

lemma sum_vTerm (signal : List ℝ) (n : ℕ) (hs : signal ≠ [])
    (hn : n < signal.length) :
    ∑ k ∈ Finset.range signal.length, vTerm signal k n = signal.getD n 0 := by
  rw [← roundtrip_core signal n hs hn, realPartSum_perm]
  exact Finset.sum_congr rfl (fun k _ => (coeffDX_mk_sample signal k n).symm)

lemma reconSample_eq_sum (signal : List ℝ) (M n : ℕ) (hM : M ≤ signal.length) :
    reconSample signal M n
      = ∑ j ∈ Finset.range M, vTerm signal (sortedFreq signal j) n := by
  have hlen : ((compute_dft signal).take M).length = M := by
    rw [List.length_take, compute_dft_length]
    exact min_eq_left hM
  rw [reconSample, realPartSum_eq_pref, hlen, prefDX]
  refine Finset.sum_congr rfl (fun j hj => ?_)
  have hjM : j < M := Finset.mem_range.mp hj
  have hjN : j < signal.length := lt_of_lt_of_le hjM hM
  have hjt : j < ((compute_dft signal).take M).length := by
    rw [hlen]; exact hjM
  have hjl : j < (compute_dft signal).length := by
    rw [compute_dft_length]; exact hjN
  have hget : ((compute_dft signal).take M).getD j default
      = (compute_dft signal).getD j default := by
    rw [List.getD_eq_getElem _ _ hjt, List.getD_eq_getElem _ _ hjl,
      List.getElem_take]
  rw [hget, sortedFreq_mk signal j hjN, coeffDX_mk_sample]

lemma residual_eq (signal : List ℝ) (hs : signal ≠ []) (n : ℕ)
    (hn : n < signal.length) (M : ℕ) (hM : M ≤ signal.length) :
    signal.getD n 0 - reconSample signal M n
      = ∑ j ∈ Finset.Ico M signal.length, vTerm signal (sortedFreq signal j) n := by
  have htot : ∑ j ∈ Finset.range signal.length, vTerm signal (sortedFreq signal j) n
      = signal.getD n 0 := by
    rw [sum_sortedFreq_bij signal (fun k => vTerm signal k n)]
    exact sum_vTerm signal n hs hn
  rw [reconSample_eq_sum signal M n hM, ← htot, Finset.range_eq_Ico,
    ← Finset.sum_Ico_consecutive (fun j => vTerm signal (sortedFreq signal j) n)
      (Nat.zero_le M) hM, ← Finset.range_eq_Ico]
  exact add_sub_cancel_left _ _

/-- The complex term whose real part over `N` is `vTerm`. -/
noncomputable def vNum (signal : List ℝ) (k n : ℕ) : ℂ :=
  dftX signal k * uexp ((k : ℝ) * n / signal.length)

lemma vTerm_eq_vNum (signal : List ℝ) (k n : ℕ) :
    vTerm signal k n = (vNum signal k n).re / signal.length := rfl

lemma dftX_conj (signal : List ℝ) (k : ℕ) (hk : k ≤ signal.length)
    (hN : 0 < signal.length) :
    dftX signal (signal.length - k) = (starRingEnd ℂ) (dftX signal k) := by
  have hNR : (signal.length : ℝ) ≠ 0 := Nat.cast_ne_zero.mpr hN.ne'
  rw [dftX, dftX, map_sum]
  refine Finset.sum_congr rfl (fun n _ => ?_)
  rw [map_mul, Complex.conj_ofReal, uexp_conj, neg_neg]
  congr 1
  have harg : -(((signal.length - k : ℕ) : ℝ) * n / signal.length)
      = ((-(n : ℤ) : ℤ) : ℝ) + (k : ℝ) * n / signal.length := by
    rw [Nat.cast_sub hk]
    push_cast
    field_simp
    ring
  rw [harg, uexp_add, uexp_intCast, one_mul]

lemma vNum_pair (signal : List ℝ) (k n : ℕ) (hk : k ≤ signal.length)
    (hN : 0 < signal.length) :
    vNum signal (signal.length - k) n = (starRingEnd ℂ) (vNum signal k n) := by
  rw [vNum, vNum, map_mul, dftX_conj signal k hk hN, uexp_conj]
  congr 1
  have hNR : (signal.length : ℝ) ≠ 0 := Nat.cast_ne_zero.mpr hN.ne'
  have harg : ((signal.length - k : ℕ) : ℝ) * n / signal.length
      = (((n : ℤ) : ℤ) : ℝ) + -((k : ℝ) * n / signal.length) := by
    rw [Nat.cast_sub hk]
    push_cast
    field_simp
    ring
  rw [harg, uexp_add, uexp_intCast, one_mul]

lemma vTerm_pair (signal : List ℝ) (k n : ℕ) (hk : k ≤ signal.length)
    (hN : 0 < signal.length) :
    vTerm signal (signal.length - k) n = vTerm signal k n := by
  rw [vTerm_eq_vNum, vTerm_eq_vNum, vNum_pair signal k n hk hN, Complex.conj_re]

lemma not_dvd_add (N k l : ℕ) (hk : k < N) (hl : l < N) (hne : k ≠ l)
    (hsum : k + l ≠ N) : ¬ (N : ℤ) ∣ ((k + l : ℕ) : ℤ) := by
  rw [Int.natCast_dvd_natCast]
  rintro ⟨c, hc⟩
  have hcc : c = 0 ∨ c = 1 ∨ 2 ≤ c := by omega
  rcases hcc with rfl | rfl | hcc
  · omega
  · omega
  · have h2 : N * 2 ≤ N * c := Nat.mul_le_mul_left N hcc
    have h3 : 2 * N ≤ k + l := by
      calc 2 * N = N * 2 := by ring
        _ ≤ N * c := h2
        _ = k + l := hc.symm
    omega

lemma not_dvd_sub (N k l : ℕ) (hk : k < N) (hl : l < N) (hne : k ≠ l) :
    ¬ (N : ℤ) ∣ ((k : ℤ) - l) := by
  intro hdvd
  have h0 : (k : ℤ) - l = 0 :=
    Int.eq_zero_of_dvd_of_natAbs_lt_natAbs hdvd (by omega)
  omega

lemma sum_vNum_mul (signal : List ℝ) (hN : 0 < signal.length) (k l : ℕ)
    (hk : k < signal.length) (hl : l < signal.length) (hne : k ≠ l)
    (hsum : k + l ≠ signal.length) :
    ∑ n ∈ Finset.range signal.length, vNum signal k n * vNum signal l n = 0 := by
  have hstep : ∀ n : ℕ, vNum signal k n * vNum signal l n
      = dftX signal k * dftX signal l *
          uexp (((((k + l : ℕ) : ℤ) : ℤ) : ℝ) * n / signal.length) := by
    intro n
    rw [vNum, vNum]
    rw [show (((((k + l : ℕ) : ℤ) : ℤ) : ℝ)) * n / signal.length
        = (k : ℝ) * n / signal.length + (l : ℝ) * n / signal.length by
      push_cast; ring]
    rw [uexp_add]
    ring
  simp only [hstep]
  rw [← Finset.mul_sum, sum_uexp_eq signal.length hN ((k + l : ℕ) : ℤ),
    if_neg (not_dvd_add signal.length k l hk hl hne hsum), mul_zero]

lemma sum_vNum_mul_conj (signal : List ℝ) (hN : 0 < signal.length) (k l : ℕ)
    (hk : k < signal.length) (hl : l < signal.length) (hne : k ≠ l) :
    ∑ n ∈ Finset.range signal.length,
        vNum signal k n * (starRingEnd ℂ) (vNum signal l n) = 0 := by
  have hstep : ∀ n : ℕ, vNum signal k n * (starRingEnd ℂ) (vNum signal l n)
      = dftX signal k * (starRingEnd ℂ) (dftX signal l) *
          uexp (((((k : ℤ) - l) : ℤ) : ℝ) * n / signal.length) := by
    intro n
    rw [vNum, vNum, map_mul, uexp_conj]
    rw [show (((((k : ℤ) - l) : ℤ) : ℝ)) * n / signal.length
        = (k : ℝ) * n / signal.length + -((l : ℝ) * n / signal.length) by
      push_cast; ring]
    rw [uexp_add]
    ring
  simp only [hstep]
  rw [← Finset.mul_sum, sum_uexp_eq signal.length hN ((k : ℤ) - l),
    if_neg (not_dvd_sub signal.length k l hk hl hne), mul_zero]

lemma re_mul_re (a b : ℂ) :
    a.re * b.re = ((a * b).re + (a * (starRingEnd ℂ) b).re) / 2 := by
  simp only [Complex.mul_re, Complex.conj_re, Complex.conj_im]
  ring

lemma vTerm_orth (signal : List ℝ) (hN : 0 < signal.length) (k l : ℕ)
    (hk : k < signal.length) (hl : l < signal.length) (hne : k ≠ l)
    (hsum : k + l ≠ signal.length) :
    ∑ n ∈ Finset.range signal.length, vTerm signal k n * vTerm signal l n = 0 := by
  have hterm : ∀ n : ℕ, vTerm signal k n * vTerm signal l n
      = (((vNum signal k n * vNum signal l n).re
          + (vNum signal k n * (starRingEnd ℂ) (vNum signal l n)).re) / 2)
        / ((signal.length : ℝ) * signal.length) := by
    intro n
    rw [vTerm_eq_vNum, vTerm_eq_vNum, div_mul_div_comm, re_mul_re]
  simp only [hterm]
  rw [← Finset.sum_div, ← Finset.sum_div, Finset.sum_add_distrib,
    ← Complex.re_sum, ← Complex.re_sum,
    sum_vNum_mul signal hN k l hk hl hne hsum,
    sum_vNum_mul_conj signal hN k l hk hl hne]
  simp

lemma vTerm_cross_nonneg (signal : List ℝ) (hN : 0 < signal.length) (k l : ℕ)
    (hk : k < signal.length) (hl : l < signal.length) (hne : k ≠ l) :
    0 ≤ ∑ n ∈ Finset.range signal.length, vTerm signal k n * vTerm signal l n := by
  by_cases hsum : k + l = signal.length
  · have hpair : ∀ n : ℕ, vTerm signal l n = vTerm signal k n := by
      intro n
      rw [show l = signal.length - k by omega]
      exact vTerm_pair signal k n (le_of_lt hk) hN
    simp only [hpair]
    exact Finset.sum_nonneg (fun n _ => mul_self_nonneg _)
  · rw [vTerm_orth signal hN k l hk hl hne hsum]

lemma sq_error_step (signal : List ℝ) (hs : signal ≠ []) (M : ℕ)
    (hM : M < signal.length) :
    ∑ n ∈ Finset.range signal.length,
        (signal.getD n 0 - reconSample signal (M + 1) n) ^ 2
      ≤ ∑ n ∈ Finset.range signal.length,
        (signal.getD n 0 - reconSample signal M n) ^ 2 := by
  have hN : 0 < signal.length := by omega
  have hrM1 : ∀ n ∈ Finset.range signal.length,
      signal.getD n 0 - reconSample signal (M + 1) n
        = ∑ j ∈ Finset.Ico (M + 1) signal.length,
            vTerm signal (sortedFreq signal j) n := by
    intro n hn
    exact residual_eq signal hs n (Finset.mem_range.mp hn) (M + 1) hM
  have hrM : ∀ n ∈ Finset.range signal.length,
      signal.getD n 0 - reconSample signal M n
        = vTerm signal (sortedFreq signal M) n
          + ∑ j ∈ Finset.Ico (M + 1) signal.length,
              vTerm signal (sortedFreq signal j) n := by
    intro n hn
    rw [residual_eq signal hs n (Finset.mem_range.mp hn) M (le_of_lt hM),
      Finset.sum_eq_sum_Ico_succ_bot hM]
  have hcross : 0 ≤ ∑ n ∈ Finset.range signal.length,
      vTerm signal (sortedFreq signal M) n *
        ∑ j ∈ Finset.Ico (M + 1) signal.length,
          vTerm signal (sortedFreq signal j) n := by
    have hswap : ∑ n ∈ Finset.range signal.length,
        vTerm signal (sortedFreq signal M) n *
          ∑ j ∈ Finset.Ico (M + 1) signal.length,
            vTerm signal (sortedFreq signal j) n
        = ∑ j ∈ Finset.Ico (M + 1) signal.length,
            ∑ n ∈ Finset.range signal.length,
              vTerm signal (sortedFreq signal M) n
                * vTerm signal (sortedFreq signal j) n := by
      rw [show (∑ n ∈ Finset.range signal.length,
          vTerm signal (sortedFreq signal M) n *
            ∑ j ∈ Finset.Ico (M + 1) signal.length,
              vTerm signal (sortedFreq signal j) n)
          = ∑ n ∈ Finset.range signal.length,
              ∑ j ∈ Finset.Ico (M + 1) signal.length,
                vTerm signal (sortedFreq signal M) n
                  * vTerm signal (sortedFreq signal j) n from
        Finset.sum_congr rfl (fun n _ => Finset.mul_sum _ _ _)]
      exact Finset.sum_comm
    rw [hswap]
    refine Finset.sum_nonneg (fun j hj => ?_)
    obtain ⟨hj1, hj2⟩ := Finset.mem_Ico.mp hj
    have hjN : j < signal.length := hj2
    have hfrne : sortedFreq signal M ≠ sortedFreq signal j := by
      intro h
      have := sortedFreq_inj signal M j hM hjN h
      omega
    exact vTerm_cross_nonneg signal hN (sortedFreq signal M) (sortedFreq signal j)
      (sortedFreq_lt signal M hM) (sortedFreq_lt signal j hjN) hfrne
  have hsq : 0 ≤ ∑ n ∈ Finset.range signal.length,
      vTerm signal (sortedFreq signal M) n ^ 2 :=
    Finset.sum_nonneg (fun n _ => sq_nonneg _)
  have hexpand : ∑ n ∈ Finset.range signal.length,
      (signal.getD n 0 - reconSample signal M n) ^ 2
      = ∑ n ∈ Finset.range signal.length, vTerm signal (sortedFreq signal M) n ^ 2
        + 2 * ∑ n ∈ Finset.range signal.length,
            vTerm signal (sortedFreq signal M) n *
              ∑ j ∈ Finset.Ico (M + 1) signal.length,
                vTerm signal (sortedFreq signal j) n
        + ∑ n ∈ Finset.range signal.length,
            (signal.getD n 0 - reconSample signal (M + 1) n) ^ 2 := by
    rw [Finset.mul_sum, ← Finset.sum_add_distrib, ← Finset.sum_add_distrib]
    refine Finset.sum_congr rfl (fun n hn => ?_)
    rw [hrM n hn, hrM1 n hn]
    ring
  linarith [hexpand, hcross, hsq]

lemma mseVal_step (signal : List ℝ) (hs : signal ≠ []) (M : ℕ) :
    mseVal signal (M + 1) ≤ mseVal signal M := by
  rcases lt_or_ge M signal.length with hM | hM
  · rw [mseVal, mseVal]
    exact div_le_div_of_nonneg_right (sq_error_step signal hs M hM)
      (Nat.cast_nonneg _)
  · have htake : (compute_dft signal).take (M + 1) = (compute_dft signal).take M := by
      rw [List.take_of_length_le (by rw [compute_dft_length]; omega),
        List.take_of_length_le (by rw [compute_dft_length]; omega)]
    have hrec : ∀ n, reconSample signal (M + 1) n = reconSample signal M n := by
      intro n
      rw [reconSample, reconSample, htake]
    have : mseVal signal (M + 1) = mseVal signal M := by
      rw [mseVal, mseVal]
      congr 1
      exact Finset.sum_congr rfl (fun n _ => by rw [hrec n])
    exact le_of_eq this

/-- C9: truncation monotonicity: for a non-empty signal and `M1 ≤ M2`, the
mean-squared error over one full period between the signal and the running
real-part reconstruction from the first `M` amplitude-sorted coefficients is
non-increasing in `M`. -/
theorem C9_mse_monotone (signal : List ℝ) (hs : signal ≠ []) (M1 M2 : ℕ)
    (h12 : M1 ≤ M2) :
    mseVal signal M2 ≤ mseVal signal M1 :=
  antitone_nat_of_succ_le (fun M => mseVal_step signal hs M) h12

/-- Witness for C9 at the concrete signal `[1]` with `M1 = 0 ≤ M2 = 1`. -/
theorem C9_mse_monotone_witness :
    mseVal [(1 : ℝ)] 1 ≤ mseVal [(1 : ℝ)] 0 :=
  C9_mse_monotone [(1 : ℝ)] (by simp) 0 1 (by norm_num)
